import Mathlib

/-!
ATSC frequency/phase locked loop (`gr-atsc/lib/receiver/atsc_fpll.cc`).

A shallow embedding of `atsc_fpll` and of the per-sample pipeline of
`atsc_fpll::work`.  The C++ `float`/`double` arithmetic is idealised as exact
arithmetic in a linearly ordered field `α`; the transcendental primitives
(`sin`, `cos`, `exp`, `gr::fast_atan2f`, `M_PI`) are collected in a record
`Prims α`, so that the model runs over `ℚ` and is interpreted over `ℝ`.
-/

set_option autoImplicit false

namespace AtscFpll

/-- The black-box math primitives used by `atsc_fpll.cc`: `sin`/`cos` behind
`nco.sincos`, `exp`, `gr::fast_atan2f (y, x)` and the constant `M_PI`. -/
structure Prims (α : Type) where
  sin : α → α
  cos : α → α
  exp : α → α
  fast_atan2f : α → α → α
  M_PI : α

/-- A `gr_complex` value (`std::complex<float>`): real and imaginary part. -/
structure gr_complex (α : Type) where
  real : α
  imag : α
deriving DecidableEq

namespace gr_complex

variable {α : Type} [LinearOrderedField α]

/-- Complex product, `operator*` of `std::complex`. -/
def mul (a b : gr_complex α) : gr_complex α :=
  ⟨a.real * b.real - a.imag * b.imag, a.real * b.imag + a.imag * b.real⟩

/-- Complex sum. -/
def add (a b : gr_complex α) : gr_complex α :=
  ⟨a.real + b.real, a.imag + b.imag⟩

/-- Product of a real tap with a complex value. -/
def smul (c : α) (a : gr_complex α) : gr_complex α :=
  ⟨c * a.real, c * a.imag⟩

/-- The complex zero. -/
def zero : gr_complex α := ⟨0, 0⟩

/-- Squared magnitude, `std::norm`. -/
def norm (a : gr_complex α) : α := a.real * a.real + a.imag * a.imag

end gr_complex

/-- Modelled from the spec: the oscillator class `gr::nco` (header
`gnuradio/nco.h`, not among the sources).  It owns the phase (radians) and the
frequency `phase_inc` (radians per sample). -/
structure nco (α : Type) where
  phase : α
  phase_inc : α
deriving DecidableEq

namespace nco

variable {α : Type} [LinearOrderedField α]

/-- Modelled from the spec: `set_phase(p)` of the missing `gr::nco` initialises
the phase. -/
def set_phase (o : nco α) (angle : α) : nco α := { o with phase := angle }

/-- Modelled from the spec: `set_freq(f)` of the missing `gr::nco` initialises
the frequency. -/
def set_freq (o : nco α) (angle_rate : α) : nco α := { o with phase_inc := angle_rate }

/-- Modelled from the spec: `adjust_phase(delta)` of the missing `gr::nco` is
`phase += delta`. -/
def adjust_phase (o : nco α) (delta_phase : α) : nco α :=
  { o with phase := o.phase + delta_phase }

/-- Modelled from the spec: `adjust_freq(delta)` of the missing `gr::nco` is
`frequency += delta`. -/
def adjust_freq (o : nco α) (delta_angle_rate : α) : nco α :=
  { o with phase_inc := o.phase_inc + delta_angle_rate }

/-- Modelled from the spec: `step()` of the missing `gr::nco` is
`phase += frequency`. -/
def step (o : nco α) : nco α := { o with phase := o.phase + o.phase_inc }

/-- Modelled from the spec: `sincos()` of the missing `gr::nco` returns the
sine and the cosine of the current phase, in this order. -/
def sincos (P : Prims α) (o : nco α) : α × α := (P.sin o.phase, P.cos o.phase)

end nco

/-- Modelled from the spec: the loop filter class `gr::filter::single_pole_iir`
(header not among the sources): one real coefficient and one complex
accumulator `y[n-1]`. -/
structure single_pole_iir (α : Type) where
  d_alpha : α
  d_prev_output : gr_complex α
deriving DecidableEq

namespace single_pole_iir

variable {α : Type} [LinearOrderedField α]

/-- Modelled from the spec: a freshly built filter of the missing
`single_pole_iir` has `y[-1] = 0`; the coefficient is set by `set_taps`. -/
def init : single_pole_iir α := ⟨1, gr_complex.zero⟩

/-- Modelled from the spec: `set_taps(alpha)` of the missing `single_pole_iir`
stores the smoothing coefficient `alpha_filter` that the filter state of the
specification holds.  This is the effect of an accepted call; whether the
header accepts a coefficient is the parameter `taps_ok` of `atsc_make_fpll`. -/
def set_taps (f : single_pole_iir α) (alpha : α) : single_pole_iir α :=
  { f with d_alpha := alpha }

/-- Modelled from the spec: `filter(x)` of the missing `single_pole_iir`
computes `y[n] = alpha * x[n] + (1 - alpha) * y[n-1]`, stores it and returns
it. -/
def filter (f : single_pole_iir α) (input : gr_complex α) :
    gr_complex α × single_pole_iir α :=
  let output := gr_complex.add (gr_complex.smul f.d_alpha input)
    (gr_complex.smul (1 - f.d_alpha) f.d_prev_output)
  (output, { f with d_prev_output := output })

/-- Calling `filter` with the same input `n` times in a row; the filter
afterwards (its accumulator is the output of the last call). -/
def filter_const (x : gr_complex α) : Nat → single_pole_iir α → single_pole_iir α
  | 0, f => f
  | n + 1, f => filter_const x n (f.filter x).2

end single_pole_iir

/-- The members of `class atsc_fpll` used by `atsc_fpll.cc`. -/
structure atsc_fpll (α : Type) where
  initial_freq : α
  initial_phase : α
  nco : nco α
  afc : single_pole_iir α
deriving DecidableEq

/-- The failure of construction: the exception of a rejected filter
coefficient leaving the constructor, which the specification calls
`InvalidConfiguration`. -/
inductive ConstructionError where
  | InvalidConfiguration
deriving DecidableEq

namespace atsc_fpll

variable {α : Type} [LinearOrderedField α]

/-- The method `atsc_fpll::initialize (float sample_rate)`, spelled
`initialise` because the source name is a reserved word; the `printf` is not
modelled. -/
def initialise (P : Prims α) (self : atsc_fpll α) (sample_rate : α) : atsc_fpll α :=
  let alpha : α := 1 - P.exp (-1.0 / sample_rate / 5e-6)
  let afc := self.afc.set_taps alpha
  let nco := self.nco.set_freq (self.initial_freq / sample_rate * 2 * P.M_PI)
  let nco := nco.set_phase self.initial_phase
  { self with nco := nco, afc := afc }

/-- The constructor `atsc_fpll::atsc_fpll (float sample_rate)`: the member
initialiser `initial_phase(0)`, the assignment of `initial_freq`, then
`initialize`.  The oscillator and the filter start from their own default
construction.  This is the object built when `afc.set_taps` accepts the
coefficient. -/
def ctor (P : Prims α) (sample_rate : α) : atsc_fpll α :=
  let self : atsc_fpll α :=
    { initial_freq := 0, initial_phase := 0, nco := ⟨0, 0⟩, afc := single_pole_iir.init }
  let self := { self with initial_freq := -3e6 + 0.309e6 }
  initialise P self sample_rate

/-- The factory `atsc_make_fpll (float sample_rate)`, that is
`new atsc_fpll (sample_rate)`.  Neither the constructor nor `initialize` checks
`sample_rate`; the only call that can end construction early is
`afc.set_taps (alpha)` in `initialize`, whose argument check belongs to the
missing header of `single_pole_iir` and is the parameter `taps_ok`.  An accepted
coefficient gives the object of `ctor`; a rejected one is the exception that
leaves the constructor. -/
def atsc_make_fpll (taps_ok : α → Bool) (P : Prims α) (sample_rate : α) :
    Except ConstructionError (atsc_fpll α) :=
  if taps_ok (1 - P.exp (-1.0 / sample_rate / 5e-6)) then Except.ok (ctor P sample_rate)
  else Except.error ConstructionError.InvalidConfiguration

/-- The local variables of one iteration of the `for` loop of `work`, and the
object after the iteration. -/
structure Iteration (α : Type) where
  result : gr_complex α
  filtered : gr_complex α
  raw : α
  x : α
  self : atsc_fpll α

/-- The loop gain `static const float alpha = 0.0002`. -/
def alpha : α := 0.0002

/-- The loop gain `static const float beta = alpha * alpha / 4`. -/
def beta : α := alpha * alpha / 4

/-- The saturation bound `static const float limit = M_PI / 2`. -/
def limit (P : Prims α) : α := P.M_PI / 2

/-- The body of the `for` loop of `atsc_fpll::work` on the sample `in_k`. -/
def loop_body (P : Prims α) (self : atsc_fpll α) (in_k : gr_complex α) : Iteration α :=
  let nco := self.nco.step
  let sc := nco.sincos P
  let a_sin := sc.1
  let a_cos := sc.2
  let result := gr_complex.mul in_k ⟨a_sin, a_cos⟩
  let fl := self.afc.filter result
  let filtered := fl.1
  let afc := fl.2
  let raw := P.fast_atan2f filtered.imag filtered.real
  let x := if raw > limit P then limit P else if raw < -limit P then -limit P else raw
  let nco := nco.adjust_phase (alpha * x)
  let nco := nco.adjust_freq (beta * x)
  { result := result, filtered := filtered, raw := raw, x := x,
    self := { self with nco := nco, afc := afc } }

/-- What one call of `work` gives back: the returned `int`, the samples written
to `out`, and the object afterwards. -/
structure WorkResult (α : Type) where
  ret : Int
  out : List (gr_complex α)
  self : atsc_fpll α

/-- The `for` loop of `work` over the samples of `in`, in order: the outputs
written and the object afterwards. -/
def work_loop (P : Prims α) : atsc_fpll α → List (gr_complex α) →
    List (gr_complex α) × atsc_fpll α
  | self, [] => ([], self)
  | self, in_k :: rest =>
    let it := loop_body P self in_k
    let r := work_loop P it.self rest
    (it.result :: r.1, r.2)

/-- The method `atsc_fpll::work`: `input` holds the `noutput_items` samples of
`in`; the call returns `noutput_items`. -/
def work (P : Prims α) (self : atsc_fpll α) (input : List (gr_complex α)) : WorkResult α :=
  let noutput_items : Int := input.length
  let r := work_loop P self input
  { ret := noutput_items, out := r.1, self := r.2 }

end atsc_fpll

/-- The saturation `clamp(x, lo, hi)` in the words of the specification of the
phase detector. -/
def clamp {α : Type} [LinearOrderedField α] (x lo hi : α) : α := max lo (min hi x)

/-- Rational stand-ins for the primitives, to run the model on concrete
inputs: truncated series for `sin`, `cos`, `exp`, a quadrant-wise rational
arctangent in the shape of `gr::fast_atan2f`, and `355/113` for `M_PI`. -/
def ratPrims : Prims ℚ where
  sin := fun t => t - t ^ 3 / 6
  cos := fun t => 1 - t ^ 2 / 2
  exp := fun t => if t < 0 then 1 / (1 - t + t ^ 2 / 2) else 1 + t + t ^ 2 / 2
  fast_atan2f := fun y x =>
    if x = 0 ∧ y = 0 then 0
    else if |y| < |x| then
      (if 0 ≤ x then (if 0 ≤ y then |y| / |x| else -(|y| / |x|))
       else (if 0 ≤ y then 355 / 113 - |y| / |x| else |y| / |x| - 355 / 113))
    else
      (if 0 ≤ y then (if 0 ≤ x then 355 / 226 - |x| / |y| else 355 / 226 + |x| / |y|)
       else (if 0 ≤ x then -(355 / 226) + |x| / |y| else -(355 / 226) - |x| / |y|))
  M_PI := 355 / 113

/-- The primitives over the reals: `Real.sin`, `Real.cos`, `Real.exp`, the
two-argument arctangent (the argument of `x + i y`) and `Real.pi`. -/
noncomputable def realPrims : Prims ℝ where
  sin := Real.sin
  cos := Real.cos
  exp := Real.exp
  fast_atan2f := fun y x => Complex.arg ⟨x, y⟩
  M_PI := Real.pi

/-- Magnitude `|z|` of a complex value over the reals, `std::abs`. -/
noncomputable def gr_complex.abs (z : gr_complex ℝ) : ℝ := Real.sqrt z.norm

end AtscFpll

namespace AtscFpll

open atsc_fpll

variable {α : Type} [LinearOrderedField α]

/-! Shared lemmas on the loop of `work`. -/

theorem work_loop_append (P : Prims α) (xs ys : List (gr_complex α)) (s : atsc_fpll α) :
    work_loop P s (xs ++ ys) =
      ((work_loop P s xs).1 ++ (work_loop P (work_loop P s xs).2 ys).1,
        (work_loop P (work_loop P s xs).2 ys).2) := by
  induction xs generalizing s with
  | nil => simp [work_loop]
  | cons v rest ih => simp [work_loop, ih]

theorem work_loop_length (P : Prims α) (xs : List (gr_complex α)) (s : atsc_fpll α) :
    (work_loop P s xs).1.length = xs.length := by
  induction xs generalizing s with
  | nil => simp [work_loop]
  | cons v rest ih => simp [work_loop, ih]

theorem work_out_append (P : Prims α) (s : atsc_fpll α) (xs ys : List (gr_complex α)) :
    (work P s (xs ++ ys)).out = (work P s xs).out ++ (work P (work P s xs).self ys).out := by
  simp [work, work_loop_append]

theorem work_self_append (P : Prims α) (s : atsc_fpll α) (xs ys : List (gr_complex α)) :
    (work P s (xs ++ ys)).self = (work P (work P s xs).self ys).self := by
  simp [work, work_loop_append]

theorem work_out_length (P : Prims α) (s : atsc_fpll α) (xs : List (gr_complex α)) :
    (work P s xs).out.length = xs.length := by
  simp [work, work_loop_length]

theorem work_singleton (P : Prims α) (s : atsc_fpll α) (v : gr_complex α) :
    (work P s [v]).out = [(loop_body P s v).result] ∧
      (work P s [v]).self = (loop_body P s v).self := by
  simp [work, work_loop]

/-- The last sample of a batch: the object after `xs ++ [v]` is the object
after one loop iteration on `v` from the object after `xs`. -/
theorem work_self_snoc (P : Prims α) (s : atsc_fpll α) (xs : List (gr_complex α))
    (v : gr_complex α) :
    (work P s (xs ++ [v])).self = (loop_body P (work P s xs).self v).self := by
  rw [work_self_append, (work_singleton P _ v).2]

theorem work_out_snoc (P : Prims α) (s : atsc_fpll α) (xs : List (gr_complex α))
    (v : gr_complex α) :
    (work P s (xs ++ [v])).out =
      (work P s xs).out ++ [(loop_body P (work P s xs).self v).result] := by
  rw [work_out_append, (work_singleton P _ v).1]

/-- Sample `k` of the output is the `result` of the loop body run on sample `k`
of the input from the object reached after the first `k` samples. -/
theorem work_out_getElem? (P : Prims α) (s : atsc_fpll α) (xs : List (gr_complex α))
    (k : Nat) :
    (work P s xs).out[k]? =
      xs[k]?.map (fun v => (loop_body P (work P s (xs.take k)).self v).result) := by
  induction xs generalizing s k with
  | nil => simp [work, work_loop]
  | cons v rest ih =>
    cases k with
    | zero => simp [work, work_loop]
    | succ k =>
      have h := ih (loop_body P s v).self k
      simpa [work, work_loop] using h

/-- Over the reals the two-argument arctangent of `(y, x) = (0, -1)` is `pi`. -/
theorem realPrims_atan2_neg_one : realPrims.fast_atan2f 0 (-1) = realPrims.M_PI := by
  show Complex.arg ⟨-1, 0⟩ = Real.pi
  have h : (⟨-1, 0⟩ : ℂ) = -1 := by
    apply Complex.ext <;> simp
  rw [h, Complex.arg_neg_one]

/-- The saturated error of one loop iteration is at most `M_PI / 2` in
magnitude, whatever the arctangent primitive returns. -/
theorem loop_body_x_abs_le (P : Prims α) (hpi : 0 ≤ P.M_PI) (s : atsc_fpll α)
    (v : gr_complex α) : |(loop_body P s v).x| ≤ P.M_PI / 2 := by
  have hl : (0 : α) ≤ P.M_PI / 2 := by positivity
  have hx : (loop_body P s v).x =
      if (loop_body P s v).raw > P.M_PI / 2 then P.M_PI / 2
      else if (loop_body P s v).raw < -(P.M_PI / 2) then -(P.M_PI / 2)
      else (loop_body P s v).raw := rfl
  rw [hx, abs_le]
  by_cases h1 : (loop_body P s v).raw > P.M_PI / 2
  · rw [if_pos h1]
    constructor <;> linarith
  · rw [if_neg h1]
    by_cases h2 : (loop_body P s v).raw < -(P.M_PI / 2)
    · rw [if_pos h2]
      constructor <;> linarith
    · rw [if_neg h2]
      exact ⟨not_lt.mp h2, not_lt.mp h1⟩

theorem alpha_nonneg : (0 : α) ≤ (alpha : α) := by
  norm_num [alpha]

theorem beta_nonneg : (0 : α) ≤ (beta : α) := by
  norm_num [beta, alpha]

/-- The frequency after the loop has run over `xs` differs from the initial
one by at most `xs.length * (beta * (M_PI / 2))`. -/
theorem work_loop_freq_drift (P : Prims α) (hpi : 0 ≤ P.M_PI) (xs : List (gr_complex α))
    (s : atsc_fpll α) :
    |(work_loop P s xs).2.nco.phase_inc - s.nco.phase_inc| ≤
      (xs.length : α) * (beta * (P.M_PI / 2)) := by
  induction xs generalizing s with
  | nil => simp [work_loop]
  | cons v rest ih =>
    have h1 := ih (loop_body P s v).self
    have h2 : (loop_body P s v).self.nco.phase_inc - s.nco.phase_inc
        = beta * (loop_body P s v).x := by
      show s.nco.phase_inc + beta * (loop_body P s v).x - s.nco.phase_inc = _
      ring
    have h3 : |(beta : α) * (loop_body P s v).x| ≤ beta * (P.M_PI / 2) := by
      rw [abs_mul, abs_of_nonneg beta_nonneg]
      exact mul_le_mul_of_nonneg_left (loop_body_x_abs_le P hpi s v) beta_nonneg
    have h4 : (work_loop P s (v :: rest)).2 = (work_loop P (loop_body P s v).self rest).2 := rfl
    have h5 : (work_loop P s (v :: rest)).2.nco.phase_inc - s.nco.phase_inc
        = ((work_loop P (loop_body P s v).self rest).2.nco.phase_inc
            - (loop_body P s v).self.nco.phase_inc)
          + beta * (loop_body P s v).x := by
      rw [h4, ← h2]
      ring
    rw [h5]
    have h6 := abs_add ((work_loop P (loop_body P s v).self rest).2.nco.phase_inc
            - (loop_body P s v).self.nco.phase_inc) (beta * (loop_body P s v).x)
    have h7 : (((v :: rest).length : ℕ) : α) = (rest.length : α) + 1 := by
      simp
    rw [h7]
    linarith

/-- One loop iteration on a zero sample from a zero accumulator, when the
arctangent primitive returns 0 at `(0, 0)`: the output is zero, the
accumulator stays zero, the frequency is kept and the phase advances by it. -/
theorem loop_body_silence (P : Prims α) (hat : P.fast_atan2f 0 0 = 0) (hpi : 0 ≤ P.M_PI)
    (i0 ip p f a : α) :
    (loop_body P ⟨i0, ip, ⟨p, f⟩, ⟨a, gr_complex.zero⟩⟩ gr_complex.zero).result
        = gr_complex.zero ∧
      (loop_body P ⟨i0, ip, ⟨p, f⟩, ⟨a, gr_complex.zero⟩⟩ gr_complex.zero).self
        = ⟨i0, ip, ⟨p + f, f⟩, ⟨a, gr_complex.zero⟩⟩ := by
  have hl : (0 : α) ≤ P.M_PI / 2 := by positivity
  have h1 : ¬ ((0 : α) > P.M_PI / 2) := not_lt.mpr hl
  have h2 : ¬ ((0 : α) < -(P.M_PI / 2)) := by
    intro h
    linarith
  simp [loop_body, nco.step, nco.sincos, nco.adjust_phase, nco.adjust_freq,
    single_pole_iir.filter, gr_complex.mul, gr_complex.add, gr_complex.smul,
    gr_complex.zero, limit, hat, h1, h2]

theorem work_loop_silence (P : Prims α) (hat : P.fast_atan2f 0 0 = 0) (hpi : 0 ≤ P.M_PI)
    (i0 ip f a : α) (n : Nat) (p : α) :
    work_loop P ⟨i0, ip, ⟨p, f⟩, ⟨a, gr_complex.zero⟩⟩ (List.replicate n gr_complex.zero)
      = (List.replicate n gr_complex.zero,
          ⟨i0, ip, ⟨p + (n : α) * f, f⟩, ⟨a, gr_complex.zero⟩⟩) := by
  induction n generalizing p with
  | zero => simp [work_loop]
  | succ n ih =>
    have hb := loop_body_silence P hat hpi i0 ip p f a
    rw [List.replicate_succ, work_loop]
    simp only [hb.1, hb.2, ih (p + f)]
    have hph : p + f + (n : α) * f = p + ((n + 1 : ℕ) : α) * f := by
      push_cast
      ring
    rw [hph]

/-- The rational stand-in for the arctangent depends only on the direction of
its argument. -/
theorem ratPrims_atan2_scale (c : ℚ) (hc : 0 < c) (y x : ℚ) :
    ratPrims.fast_atan2f (c * y) (c * x) = ratPrims.fast_atan2f y x := by
  have hc0 : c ≠ 0 := ne_of_gt hc
  have e1 : (c * x = 0 ∧ c * y = 0) ↔ (x = 0 ∧ y = 0) := by
    simp [hc0]
  have e2 : (|c * y| < |c * x|) ↔ (|y| < |x|) := by
    rw [abs_mul, abs_mul, abs_of_pos hc]
    exact mul_lt_mul_left hc
  have e3 : (0 ≤ c * x) ↔ (0 ≤ x) := mul_nonneg_iff_of_pos_left hc
  have e4 : (0 ≤ c * y) ↔ (0 ≤ y) := mul_nonneg_iff_of_pos_left hc
  have e5 : |c * y| / |c * x| = |y| / |x| := by
    rw [abs_mul, abs_mul, abs_of_pos hc]
    exact mul_div_mul_left _ _ hc0
  have e6 : |c * x| / |c * y| = |x| / |y| := by
    rw [abs_mul, abs_mul, abs_of_pos hc]
    exact mul_div_mul_left _ _ hc0
  simp only [ratPrims, e1, e2, e3, e4, e5, e6]

/-- Over the reals the two-argument arctangent depends only on the direction
of its argument. -/
theorem realPrims_atan2_scale (c : ℝ) (hc : 0 < c) (y x : ℝ) :
    realPrims.fast_atan2f (c * y) (c * x) = realPrims.fast_atan2f y x := by
  show Complex.arg ⟨c * x, c * y⟩ = Complex.arg ⟨x, y⟩
  have h : (⟨c * x, c * y⟩ : ℂ) = (c : ℂ) * ⟨x, y⟩ := by
    apply Complex.ext <;> simp
  rw [h, Complex.arg_real_mul _ hc]

/-- One loop iteration on a sample scaled by `c`, from an object whose
accumulator is scaled by `c`, when the arctangent primitive is not changed by
the factor `c`: the output and the new accumulator are scaled by `c`, the
oscillator is the same. -/
theorem loop_body_scaled (P : Prims α) (c : α)
    (hat : ∀ y x, P.fast_atan2f (c * y) (c * x) = P.fast_atan2f y x)
    (i0 ip j0 jp : α) (o : nco α) (a : α) (y v : gr_complex α) :
    (loop_body P ⟨j0, jp, o, ⟨a, gr_complex.smul c y⟩⟩ (gr_complex.smul c v)).result
        = gr_complex.smul c (loop_body P ⟨i0, ip, o, ⟨a, y⟩⟩ v).result ∧
      (loop_body P ⟨j0, jp, o, ⟨a, gr_complex.smul c y⟩⟩ (gr_complex.smul c v)).self
        = ⟨j0, jp, (loop_body P ⟨i0, ip, o, ⟨a, y⟩⟩ v).self.nco,
            ⟨a, gr_complex.smul c (loop_body P ⟨i0, ip, o, ⟨a, y⟩⟩ v).self.afc.d_prev_output⟩⟩ := by
  have hres : (loop_body P ⟨j0, jp, o, ⟨a, gr_complex.smul c y⟩⟩ (gr_complex.smul c v)).result
      = gr_complex.smul c (loop_body P ⟨i0, ip, o, ⟨a, y⟩⟩ v).result := by
    simp only [loop_body, nco.step, nco.sincos, gr_complex.mul, gr_complex.smul,
      gr_complex.mk.injEq]
    constructor <;> ring
  have hfil : (loop_body P ⟨j0, jp, o, ⟨a, gr_complex.smul c y⟩⟩ (gr_complex.smul c v)).filtered
      = gr_complex.smul c (loop_body P ⟨i0, ip, o, ⟨a, y⟩⟩ v).filtered := by
    simp only [loop_body, nco.step, nco.sincos, single_pole_iir.filter, gr_complex.mul,
      gr_complex.add, gr_complex.smul, gr_complex.mk.injEq]
    constructor <;> ring
  have hraw : (loop_body P ⟨j0, jp, o, ⟨a, gr_complex.smul c y⟩⟩ (gr_complex.smul c v)).raw
      = (loop_body P ⟨i0, ip, o, ⟨a, y⟩⟩ v).raw := by
    show P.fast_atan2f
        (loop_body P ⟨j0, jp, o, ⟨a, gr_complex.smul c y⟩⟩ (gr_complex.smul c v)).filtered.imag
        (loop_body P ⟨j0, jp, o, ⟨a, gr_complex.smul c y⟩⟩ (gr_complex.smul c v)).filtered.real
      = _
    rw [hfil]
    exact hat _ _
  have hx : (loop_body P ⟨j0, jp, o, ⟨a, gr_complex.smul c y⟩⟩ (gr_complex.smul c v)).x
      = (loop_body P ⟨i0, ip, o, ⟨a, y⟩⟩ v).x := by
    show (if (loop_body P ⟨j0, jp, o, ⟨a, gr_complex.smul c y⟩⟩ (gr_complex.smul c v)).raw
          > limit P then limit P
        else if (loop_body P ⟨j0, jp, o, ⟨a, gr_complex.smul c y⟩⟩ (gr_complex.smul c v)).raw
          < -limit P then -limit P
        else (loop_body P ⟨j0, jp, o, ⟨a, gr_complex.smul c y⟩⟩ (gr_complex.smul c v)).raw) = _
    rw [hraw]
    rfl
  refine ⟨hres, ?_⟩
  show (⟨j0, jp,
      ((o.step).adjust_phase (alpha *
        (loop_body P ⟨j0, jp, o, ⟨a, gr_complex.smul c y⟩⟩ (gr_complex.smul c v)).x)).adjust_freq
        (beta * (loop_body P ⟨j0, jp, o, ⟨a, gr_complex.smul c y⟩⟩ (gr_complex.smul c v)).x),
      ⟨a, (loop_body P ⟨j0, jp, o, ⟨a, gr_complex.smul c y⟩⟩
        (gr_complex.smul c v)).filtered⟩⟩ : atsc_fpll α) = _
  rw [hx, hfil]
  rfl

/-- The loop of `work` on a stream scaled by `c`, from an object whose
accumulator is scaled by `c`: outputs and accumulator scaled by `c`, same
oscillator. -/
theorem work_loop_scaled (P : Prims α) (c : α)
    (hat : ∀ y x, P.fast_atan2f (c * y) (c * x) = P.fast_atan2f y x)
    (i0 ip a : α) (xs : List (gr_complex α)) (o : nco α) (y : gr_complex α) :
    work_loop P ⟨i0, ip, o, ⟨a, gr_complex.smul c y⟩⟩ (xs.map (gr_complex.smul c))
      = ((work_loop P ⟨i0, ip, o, ⟨a, y⟩⟩ xs).1.map (gr_complex.smul c),
          ⟨i0, ip, (work_loop P ⟨i0, ip, o, ⟨a, y⟩⟩ xs).2.nco,
            ⟨a, gr_complex.smul c (work_loop P ⟨i0, ip, o, ⟨a, y⟩⟩ xs).2.afc.d_prev_output⟩⟩) := by
  induction xs generalizing o y with
  | nil => simp [work_loop]
  | cons v rest ih =>
    have hb := loop_body_scaled P c hat i0 ip i0 ip o a y v
    have hs : (loop_body P ⟨i0, ip, o, ⟨a, y⟩⟩ v).self
        = ⟨i0, ip, (loop_body P ⟨i0, ip, o, ⟨a, y⟩⟩ v).self.nco,
            ⟨a, (loop_body P ⟨i0, ip, o, ⟨a, y⟩⟩ v).self.afc.d_prev_output⟩⟩ := rfl
    rw [List.map_cons, work_loop, work_loop]
    simp only [hb.1, hb.2]
    rw [ih]
    rw [← hs]
    simp

/-! The claims. -/

/-- C1. Batch-chunking independence of `work`: running `work` on `xs ++ ys`
from any object `s` writes the outputs of `work` on `xs` followed by those of
`work` on `ys` from the object left by the first call, ends in the same object
and returns the sum of the two return values; so the first `xs.length` outputs
do not depend on `ys`. -/
theorem C1_work_chunking (P : Prims α) (s : atsc_fpll α) (xs ys : List (gr_complex α)) :
    (work P s (xs ++ ys)).out = (work P s xs).out ++ (work P (work P s xs).self ys).out ∧
      (work P s (xs ++ ys)).self = (work P (work P s xs).self ys).self ∧
      (work P s (xs ++ ys)).ret = (work P s xs).ret + (work P (work P s xs).self ys).ret ∧
      (work P s (xs ++ ys)).out.take xs.length = (work P s xs).out := by
  refine ⟨work_out_append P s xs ys, work_self_append P s xs ys, ?_, ?_⟩
  · simp [work]
  · rw [work_out_append, ← work_out_length P s xs, List.take_left]

/-- C2. Per-sample output of `work`: output `k` is input `k` times
`complex(sin p, cos p)`, with `p` the phase after the step of sample `k`
(the phase plus the frequency of the object reached after the first `k`
samples), before the feedback of that sample.  With phase 0, frequency `f`
(in particular `f = 0`) and a zero accumulator, the first output for the
input `(1, 0)` is `(1, 0) * complex(sin (f * 1), cos (f * 1))`. -/
theorem C2_work_output (P : Prims α) (s : atsc_fpll α) (xs : List (gr_complex α)) (k : Nat)
    (f a i0 p0 : α) (rest : List (gr_complex α)) :
    (work P s xs).out[k]? =
        xs[k]?.map (fun v => gr_complex.mul v
          ⟨P.sin ((work P s (xs.take k)).self.nco.phase
              + (work P s (xs.take k)).self.nco.phase_inc),
            P.cos ((work P s (xs.take k)).self.nco.phase
              + (work P s (xs.take k)).self.nco.phase_inc)⟩) ∧
      (work P ⟨i0, p0, ⟨0, f⟩, ⟨a, gr_complex.zero⟩⟩ (⟨1, 0⟩ :: rest)).out[0]? =
        some (gr_complex.mul ⟨1, 0⟩ ⟨P.sin (f * 1), P.cos (f * 1)⟩) := by
  constructor
  · rw [work_out_getElem?]
    rfl
  · simp [work, work_loop, loop_body, nco.step, nco.sincos]

/-- C9. Size contract of `work`: for a batch of `N` samples it writes exactly
`N` outputs and returns `N`; it is a total function with no error result; on
the empty batch it writes nothing, returns 0 and leaves the object unchanged. -/
theorem C9_work_size (P : Prims α) (s : atsc_fpll α) (xs : List (gr_complex α)) :
    (work P s xs).out.length = xs.length ∧
      (work P s xs).ret = (xs.length : Int) ∧
      (work P s []).out = [] ∧ (work P s []).ret = 0 ∧ (work P s []).self = s := by
  refine ⟨work_out_length P s xs, rfl, rfl, rfl, rfl⟩

/-- C3. Saturation of the phase detector: for the sample `v` processed after
the batch `xs`, with `raw` the arctangent primitive applied to the imaginary
and real part of the filtered value, the correction added to the phase is
`alpha * clamp(raw, -pi/2, pi/2)` and the one added to the frequency is
`beta * clamp(raw, -pi/2, pi/2)`; the error is exactly `pi/2` when
`raw > pi/2`, exactly `-pi/2` when `raw < -pi/2`, and `raw` itself otherwise.
When the filtered value is `(-1, 0)` and the primitive returns `pi` there, the
applied error is exactly `pi/2`. -/
theorem C3_saturation (P : Prims α) (hpi : 0 ≤ P.M_PI) (s : atsc_fpll α)
    (xs : List (gr_complex α)) (v : gr_complex α) :
    let sk := (work P s xs).self
    let it := loop_body P sk v
    let raw := P.fast_atan2f it.filtered.imag it.filtered.real
    (work P s (xs ++ [v])).self.nco.phase =
        sk.nco.phase + sk.nco.phase_inc + alpha * clamp raw (-(P.M_PI / 2)) (P.M_PI / 2) ∧
      (work P s (xs ++ [v])).self.nco.phase_inc =
        sk.nco.phase_inc + beta * clamp raw (-(P.M_PI / 2)) (P.M_PI / 2) ∧
      it.x = clamp raw (-(P.M_PI / 2)) (P.M_PI / 2) ∧
      (P.M_PI / 2 < raw → it.x = P.M_PI / 2) ∧
      (raw < -(P.M_PI / 2) → it.x = -(P.M_PI / 2)) ∧
      (-(P.M_PI / 2) ≤ raw → raw ≤ P.M_PI / 2 → it.x = raw) ∧
      (it.filtered = ⟨-1, 0⟩ → P.fast_atan2f 0 (-1) = P.M_PI → it.x = P.M_PI / 2) := by
  intro sk it raw
  have hl : (0 : α) ≤ P.M_PI / 2 := by positivity
  have hx : it.x = if raw > P.M_PI / 2 then P.M_PI / 2
      else if raw < -(P.M_PI / 2) then -(P.M_PI / 2) else raw := rfl
  have hc : it.x = clamp raw (-(P.M_PI / 2)) (P.M_PI / 2) := by
    rw [hx]
    unfold clamp
    by_cases h1 : raw > P.M_PI / 2
    · rw [if_pos h1, min_eq_left (le_of_lt h1), max_eq_right (by linarith)]
    · rw [if_neg h1, min_eq_right (not_lt.mp h1)]
      by_cases h2 : raw < -(P.M_PI / 2)
      · rw [if_pos h2, max_eq_left (le_of_lt h2)]
      · rw [if_neg h2, max_eq_right (not_lt.mp h2)]
  have hp : (work P s (xs ++ [v])).self.nco.phase =
      sk.nco.phase + sk.nco.phase_inc + alpha * it.x := by
    rw [work_self_snoc]
    rfl
  have hf : (work P s (xs ++ [v])).self.nco.phase_inc = sk.nco.phase_inc + beta * it.x := by
    rw [work_self_snoc]
    rfl
  refine ⟨by rw [hp, hc], by rw [hf, hc], hc, ?_, ?_, ?_, ?_⟩
  · intro h
    rw [hx, if_pos h]
  · intro h
    have h1 : ¬ raw > P.M_PI / 2 := by
      intro h1
      have : raw < P.M_PI / 2 := by linarith
      exact absurd h1 (not_lt.mpr (le_of_lt this))
    rw [hx, if_neg h1, if_pos h]
  · intro h1 h2
    rw [hx, if_neg (not_lt.mpr h2), if_neg (not_lt.mpr h1)]
  · intro hfil hat
    have hr : raw = P.M_PI := by
      show P.fast_atan2f it.filtered.imag it.filtered.real = P.M_PI
      rw [hfil]
      exact hat
    rw [hx, hr]
    by_cases h1 : P.M_PI > P.M_PI / 2
    · rw [if_pos h1]
    · have h0 : P.M_PI = 0 := by linarith
      rw [if_neg h1, h0]
      norm_num

/-- C3, at a concrete input over the rationals: accumulator `(-1, 0)`,
coefficient `1/2`, oscillator at rest, input `(0, 1)`; the filtered value is
`(-1, 0)`, the raw angle is `355/113` and the applied error is `355/226`. -/
theorem C3_saturation_witness :
    (0 : ℚ) ≤ ratPrims.M_PI ∧
      (loop_body ratPrims ⟨0, 0, ⟨0, 0⟩, ⟨1 / 2, ⟨-1, 0⟩⟩⟩ ⟨0, 1⟩).filtered = ⟨-1, 0⟩ ∧
      (loop_body ratPrims ⟨0, 0, ⟨0, 0⟩, ⟨1 / 2, ⟨-1, 0⟩⟩⟩ ⟨0, 1⟩).x = 355 / 226 := by
  have hpi : (0 : ℚ) ≤ ratPrims.M_PI := by norm_num [ratPrims]
  have hfil : (loop_body ratPrims ⟨0, 0, ⟨0, 0⟩, ⟨1 / 2, ⟨-1, 0⟩⟩⟩ ⟨0, 1⟩).filtered
      = ⟨-1, 0⟩ := by
    norm_num [loop_body, nco.step, nco.sincos, single_pole_iir.filter, gr_complex.mul,
      gr_complex.add, gr_complex.smul, ratPrims]
  have hat : ratPrims.fast_atan2f 0 (-1) = ratPrims.M_PI := by
    norm_num [ratPrims]
  have h := C3_saturation ratPrims hpi ⟨0, 0, ⟨0, 0⟩, ⟨1 / 2, ⟨-1, 0⟩⟩⟩ [] ⟨0, 1⟩
  have hx := h.2.2.2.2.2.2 hfil hat
  refine ⟨hpi, hfil, ?_⟩
  rw [show (355 : ℚ) / 226 = ratPrims.M_PI / 2 by norm_num [ratPrims]]
  exact hx

/-- C8. Second-order feedback gains: for the sample `v` processed after the
batch `xs`, with `x` the saturated error of that sample, the feedback adds
exactly `alpha * x` to the stepped phase and `beta * x` to the frequency, with
`alpha = 2e-4` and `beta = alpha^2 / 4 = 1e-8`; the frequency correction is
`alpha / 4` times the phase correction. -/
theorem C8_feedback_gains (P : Prims α) (s : atsc_fpll α) (xs : List (gr_complex α))
    (v : gr_complex α) :
    let sk := (work P s xs).self
    let x := (loop_body P sk v).x
    (work P s (xs ++ [v])).self.nco.phase = sk.nco.step.phase + (alpha : α) * x ∧
      (work P s (xs ++ [v])).self.nco.phase_inc = sk.nco.phase_inc + (beta : α) * x ∧
      (alpha : α) = 2e-4 ∧ (beta : α) = (alpha : α) ^ 2 / 4 ∧ (beta : α) = 1e-8 ∧
      (work P s (xs ++ [v])).self.nco.phase_inc - sk.nco.phase_inc =
        (alpha : α) / 4 *
          ((work P s (xs ++ [v])).self.nco.phase - sk.nco.step.phase) := by
  intro sk x
  have hp : (work P s (xs ++ [v])).self.nco.phase = sk.nco.step.phase + (alpha : α) * x := by
    rw [work_self_snoc]
    rfl
  have hf : (work P s (xs ++ [v])).self.nco.phase_inc = sk.nco.phase_inc + (beta : α) * x := by
    rw [work_self_snoc]
    rfl
  refine ⟨hp, hf, ?_, ?_, ?_, ?_⟩
  · norm_num [alpha]
  · simp only [beta]
    ring
  · norm_num [beta, alpha]
  · rw [hp, hf]
    simp only [beta]
    ring

/-- The accumulator after `n` calls of `filter` on the constant input `x`,
from a zero accumulator. -/
theorem filter_const_closed (a : α) (x : gr_complex α) (n : Nat) :
    single_pole_iir.filter_const x n ⟨a, gr_complex.zero⟩ =
      ⟨a, gr_complex.smul (1 - (1 - a) ^ n) x⟩ := by
  suffices h : ∀ (m : Nat) (y : gr_complex α),
      single_pole_iir.filter_const x m ⟨a, y⟩ =
        ⟨a, gr_complex.add (gr_complex.smul (1 - (1 - a) ^ m) x)
          (gr_complex.smul ((1 - a) ^ m) y)⟩ by
    rw [h n gr_complex.zero]
    simp [gr_complex.add, gr_complex.smul, gr_complex.zero]
  intro m
  induction m with
  | zero =>
    intro y
    simp [single_pole_iir.filter_const, gr_complex.add, gr_complex.smul]
  | succ m ih =>
    intro y
    rw [single_pole_iir.filter_const]
    simp only [single_pole_iir.filter]
    rw [ih]
    simp only [gr_complex.add, gr_complex.smul, single_pole_iir.mk.injEq,
      gr_complex.mk.injEq, true_and]
    constructor <;> ring

/-- C5. Loop-filter step response: from a zero accumulator and with
coefficient `a`, the call number `n + 1` of `filter` on the same input `x`
returns `x * (1 - (1 - a)^(n + 1))`, and the accumulator after `n` calls is
`x * (1 - (1 - a)^n)`; each call follows
`y[n] = a * x[n] + (1 - a) * y[n-1]`, and the loop body of `work` obtains its
filtered value and its next filter from this call on the derotated sample. -/
theorem C5_filter_step_response (P : Prims α) (a : α) (x y : gr_complex α) (n : Nat)
    (s : atsc_fpll α) (v : gr_complex α) :
    ((single_pole_iir.filter_const x n ⟨a, gr_complex.zero⟩).filter x).1 =
        gr_complex.smul (1 - (1 - a) ^ (n + 1)) x ∧
      (single_pole_iir.filter_const x n ⟨a, gr_complex.zero⟩).d_prev_output =
        gr_complex.smul (1 - (1 - a) ^ n) x ∧
      (single_pole_iir.filter ⟨a, y⟩ x).1 =
        ⟨a * x.real + (1 - a) * y.real, a * x.imag + (1 - a) * y.imag⟩ ∧
      (single_pole_iir.filter ⟨a, y⟩ x).2 = ⟨a, (single_pole_iir.filter ⟨a, y⟩ x).1⟩ ∧
      (loop_body P s v).filtered = (s.afc.filter (loop_body P s v).result).1 ∧
      (loop_body P s v).self.afc = (s.afc.filter (loop_body P s v).result).2 := by
  refine ⟨?_, ?_, rfl, rfl, rfl, rfl⟩
  · rw [filter_const_closed]
    simp only [single_pole_iir.filter, gr_complex.add, gr_complex.smul, gr_complex.mk.injEq]
    constructor <;> ring
  · rw [filter_const_closed]

/-- C7. State after construction: for every positive `sample_rate` the
constructed object has filter coefficient `1 - exp(-1 / (sample_rate * 5e-6))`,
oscillator frequency `initial_freq / sample_rate * 2 * pi` with
`initial_freq = -3e6 + 0.309e6`, and oscillator phase `initial_phase = 0`; the
factory returns this object whenever `set_taps` accepts the coefficient. -/
theorem C7_constructed_state (P : Prims α) (sample_rate : α) (h : 0 < sample_rate) :
    (ctor P sample_rate).afc.d_alpha = 1 - P.exp (-1 / (sample_rate * 5e-6)) ∧
      (ctor P sample_rate).nco.phase_inc = (-3e6 + 0.309e6) / sample_rate * 2 * P.M_PI ∧
      (ctor P sample_rate).initial_freq = -3e6 + 0.309e6 ∧
      (ctor P sample_rate).initial_freq = -2691000 ∧
      (ctor P sample_rate).nco.phase = (ctor P sample_rate).initial_phase ∧
      (ctor P sample_rate).initial_phase = 0 ∧
      (∀ taps_ok : α → Bool, taps_ok (ctor P sample_rate).afc.d_alpha = true →
        atsc_make_fpll taps_ok P sample_rate = Except.ok (ctor P sample_rate)) := by
  have _hs : sample_rate ≠ 0 := ne_of_gt h
  refine ⟨?_, rfl, rfl, ?_, rfl, rfl, ?_⟩
  · show 1 - P.exp (-1.0 / sample_rate / 5e-6) = 1 - P.exp (-1 / (sample_rate * 5e-6))
    congr 2
    rw [div_div]
    norm_num
  · show (-3e6 + 0.309e6 : α) = -2691000
    norm_num
  · intro taps_ok hok
    have hdef : atsc_make_fpll taps_ok P sample_rate
        = (if taps_ok (ctor P sample_rate).afc.d_alpha = true
            then Except.ok (ctor P sample_rate)
            else Except.error ConstructionError.InvalidConfiguration) := rfl
    rw [hdef, if_pos hok]

/-- C7 at the sample rate 20 MHz over the rationals: the frequency is
`-2691000 / 20000000 * 2 * (355/113) = -191061/226000` and the phase is 0. -/
theorem C7_constructed_state_witness :
    (0 : ℚ) < 20000000 ∧
      (ctor ratPrims 20000000).nco.phase_inc = -191061 / 226000 ∧
      (ctor ratPrims 20000000).nco.phase = 0 ∧
      (ctor ratPrims 20000000).afc.d_alpha = 1 - ratPrims.exp (-1 / 100) := by
  have h := C7_constructed_state ratPrims 20000000 (by norm_num)
  refine ⟨by norm_num, ?_, ?_, ?_⟩
  · rw [h.2.1]
    norm_num [ratPrims]
  · rw [h.2.2.2.2.1, h.2.2.2.2.2.1]
  · rw [h.1]
    norm_num

/-- The derotation multiplier has unit magnitude over the reals, so one loop
iteration preserves the squared magnitude of its input. -/
theorem loop_body_norm (s : atsc_fpll ℝ) (v : gr_complex ℝ) :
    (loop_body realPrims s v).result.norm = v.norm := by
  have hsc := Real.sin_sq_add_cos_sq (s.nco.phase + s.nco.phase_inc)
  show (v.real * Real.sin (s.nco.phase + s.nco.phase_inc)
        - v.imag * Real.cos (s.nco.phase + s.nco.phase_inc))
      * (v.real * Real.sin (s.nco.phase + s.nco.phase_inc)
        - v.imag * Real.cos (s.nco.phase + s.nco.phase_inc))
      + (v.real * Real.cos (s.nco.phase + s.nco.phase_inc)
        + v.imag * Real.sin (s.nco.phase + s.nco.phase_inc))
      * (v.real * Real.cos (s.nco.phase + s.nco.phase_inc)
        + v.imag * Real.sin (s.nco.phase + s.nco.phase_inc))
      = v.real * v.real + v.imag * v.imag
  nlinarith [hsc]

/-- C10. Derotation preserves magnitude: over the reals, for every object and
every input stream, the magnitudes of the outputs of `work` are, sample by
sample, the magnitudes of the inputs; the multiplier `complex(sin p, cos p)`
has magnitude 1 for every phase `p`. -/
theorem C10_magnitude_preserved (s : atsc_fpll ℝ) (xs : List (gr_complex ℝ)) (p : ℝ) :
    (work realPrims s xs).out.map gr_complex.abs = xs.map gr_complex.abs ∧
      gr_complex.abs ⟨realPrims.sin p, realPrims.cos p⟩ = 1 := by
  constructor
  · apply List.ext_getElem?
    intro k
    rw [List.getElem?_map, List.getElem?_map, work_out_getElem?]
    cases xs[k]? with
    | none => rfl
    | some v =>
      simp only [Option.map_some']
      congr 1
      unfold gr_complex.abs
      rw [loop_body_norm]
  · unfold gr_complex.abs gr_complex.norm
    show Real.sqrt (Real.sin p * Real.sin p + Real.cos p * Real.cos p) = 1
    have h := Real.sin_sq_add_cos_sq p
    rw [show Real.sin p * Real.sin p + Real.cos p * Real.cos p
        = Real.sin p ^ 2 + Real.cos p ^ 2 by ring, h]
    exact Real.sqrt_one

/-- C11. Oscillator additivity: on every oscillator state, `adjust_phase a`
then `adjust_phase b` gives the state of `adjust_phase (a + b)`, and
`adjust_freq a` then `adjust_freq b` gives the state of `adjust_freq (a + b)`;
`adjust_phase` leaves the frequency unchanged and `adjust_freq` leaves the
phase unchanged. -/
theorem C11_oscillator_additivity (o : nco α) (a b : α) :
    (o.adjust_phase a).adjust_phase b = o.adjust_phase (a + b) ∧
      (o.adjust_freq a).adjust_freq b = o.adjust_freq (a + b) ∧
      (o.adjust_phase a).phase_inc = o.phase_inc ∧
      (o.adjust_freq a).phase = o.phase := by
  refine ⟨?_, ?_, rfl, rfl⟩
  · simp only [nco.adjust_phase, add_assoc]
  · simp only [nco.adjust_freq, add_assoc]

/-- C13. Feedback is consumed on the next sample, with the updated frequency.
Let sample `k` be `v`, processed after the batch `xs`, with `p_k` the phase
used to rotate it, `f_k` the frequency used in its step and `x_k` its
saturated error.  Then the frequency used in the step of sample `k + 1` is
`f_k + beta * x_k`, the phase used to rotate sample `k + 1` is
`p_k + alpha * x_k + (f_k + beta * x_k)`, and the output for the next sample
`w` is `w` times the sine/cosine pair of that phase, whether `w` is in the same
batch as `v` or is the first sample of the following call of `work`. -/
theorem C13_feedback_next_sample (P : Prims α) (s : atsc_fpll α) (xs : List (gr_complex α))
    (v w : gr_complex α) (rest : List (gr_complex α)) :
    let sk := (work P s xs).self
    let p_k := sk.nco.phase + sk.nco.phase_inc
    let f_k := sk.nco.phase_inc
    let x_k := (loop_body P sk v).x
    let sk1 := (work P s (xs ++ [v])).self
    let p_k1 := p_k + alpha * x_k + (f_k + beta * x_k)
    sk1.nco.phase_inc = f_k + beta * x_k ∧
      sk1.nco.phase + sk1.nco.phase_inc = p_k1 ∧
      (work P s (xs ++ [v])).out[xs.length]? =
        some (gr_complex.mul v ⟨P.sin p_k, P.cos p_k⟩) ∧
      (work P s (xs ++ [v] ++ w :: rest)).out[xs.length + 1]? =
        some (gr_complex.mul w ⟨P.sin p_k1, P.cos p_k1⟩) ∧
      (work P sk1 (w :: rest)).out[0]? =
        some (gr_complex.mul w ⟨P.sin p_k1, P.cos p_k1⟩) := by
  intro sk p_k f_k x_k sk1 p_k1
  have hself : sk1 = (loop_body P sk v).self := work_self_snoc P s xs v
  have hf : sk1.nco.phase_inc = f_k + beta * x_k := by
    rw [hself]
    rfl
  have hp : sk1.nco.phase + sk1.nco.phase_inc = p_k1 := by
    rw [hself]
    rfl
  have hfirst : (work P sk1 (w :: rest)).out[0]? =
      some (gr_complex.mul w ⟨P.sin p_k1, P.cos p_k1⟩) := by
    rw [← hp]
    simp [work, work_loop, loop_body, nco.step, nco.sincos]
  refine ⟨hf, hp, ?_, ?_, hfirst⟩
  · rw [work_out_snoc, List.getElem?_append_right (by rw [work_out_length]),
      work_out_length]
    simp [loop_body, nco.step, nco.sincos, p_k, sk]
  · rw [work_out_append, List.getElem?_append_right (by rw [work_out_length]; simp),
      work_out_length]
    simpa using hfirst

/-- C14. Bounded frequency drift from error saturation: for every object `s`,
every batch `xs` and every further sample `v`, the phase correction of `v` has
magnitude at most `alpha * pi/2`, its frequency correction has magnitude at
most `beta * pi/2`, and the frequency after the `n` samples of `xs` differs
from the initial frequency by at most `n * (beta * pi/2)`. -/
theorem C14_bounded_drift (P : Prims α) (hpi : 0 ≤ P.M_PI) (s : atsc_fpll α)
    (xs : List (gr_complex α)) (v : gr_complex α) :
    |(work P s (xs ++ [v])).self.nco.phase - (work P s xs).self.nco.step.phase|
        ≤ alpha * (P.M_PI / 2) ∧
      |(work P s (xs ++ [v])).self.nco.phase_inc - (work P s xs).self.nco.phase_inc|
        ≤ beta * (P.M_PI / 2) ∧
      |(work P s xs).self.nco.phase_inc - s.nco.phase_inc|
        ≤ (xs.length : α) * (beta * (P.M_PI / 2)) := by
  have hx := loop_body_x_abs_le P hpi (work P s xs).self v
  refine ⟨?_, ?_, work_loop_freq_drift P hpi xs s⟩
  · rw [work_self_snoc]
    have h : (loop_body P (work P s xs).self v).self.nco.phase
        - (work P s xs).self.nco.step.phase
        = alpha * (loop_body P (work P s xs).self v).x := by
      show (work P s xs).self.nco.step.phase + alpha * (loop_body P (work P s xs).self v).x
        - (work P s xs).self.nco.step.phase = _
      ring
    rw [h, abs_mul, abs_of_nonneg alpha_nonneg]
    exact mul_le_mul_of_nonneg_left hx alpha_nonneg
  · rw [work_self_snoc]
    have h : (loop_body P (work P s xs).self v).self.nco.phase_inc
        - (work P s xs).self.nco.phase_inc
        = beta * (loop_body P (work P s xs).self v).x := by
      show (work P s xs).self.nco.phase_inc + beta * (loop_body P (work P s xs).self v).x
        - (work P s xs).self.nco.phase_inc = _
      ring
    rw [h, abs_mul, abs_of_nonneg beta_nonneg]
    exact mul_le_mul_of_nonneg_left hx beta_nonneg

/-- C14 at a concrete input over the rationals: from phase 0, frequency
`1/10`, coefficient `1/2` and a zero accumulator, the batch `(1, 0), (0, 1)`
followed by the sample `(1, 1)`. -/
theorem C14_bounded_drift_witness :
    (0 : ℚ) ≤ ratPrims.M_PI ∧
      |(work ratPrims ⟨0, 0, ⟨0, 1 / 10⟩, ⟨1 / 2, ⟨0, 0⟩⟩⟩ [⟨1, 0⟩, ⟨0, 1⟩]).self.nco.phase_inc
          - 1 / 10| ≤ 2 * (beta * (ratPrims.M_PI / 2)) := by
  have hpi : (0 : ℚ) ≤ ratPrims.M_PI := by norm_num [ratPrims]
  have h := (C14_bounded_drift ratPrims hpi ⟨0, 0, ⟨0, 1 / 10⟩, ⟨1 / 2, ⟨0, 0⟩⟩⟩
    [⟨1, 0⟩, ⟨0, 1⟩] ⟨1, 1⟩).2.2
  refine ⟨hpi, ?_⟩
  have h2 : ((([⟨1, 0⟩, ⟨0, 1⟩] : List (gr_complex ℚ)).length : ℕ) : ℚ) = 2 := by
    norm_num
  rw [h2] at h
  exact h

/-- C15. Free-running oscillator on silence: when the arctangent primitive
returns 0 at `(0, 0)` (and `M_PI` is not negative), from any oscillator state
`(p0, f0)` with a zero accumulator, `n` zero input samples give `n` zero
outputs and return `n`, leave the accumulator at zero and the coefficient and
frequency unchanged, and leave the phase at `p0 + n * f0`. -/
theorem C15_silence (P : Prims α) (hat : P.fast_atan2f 0 0 = 0) (hpi : 0 ≤ P.M_PI)
    (i0 ip p0 f0 a : α) (n : Nat) :
    (work P ⟨i0, ip, ⟨p0, f0⟩, ⟨a, gr_complex.zero⟩⟩
        (List.replicate n gr_complex.zero)).out = List.replicate n gr_complex.zero ∧
      (work P ⟨i0, ip, ⟨p0, f0⟩, ⟨a, gr_complex.zero⟩⟩
        (List.replicate n gr_complex.zero)).ret = (n : Int) ∧
      (work P ⟨i0, ip, ⟨p0, f0⟩, ⟨a, gr_complex.zero⟩⟩
        (List.replicate n gr_complex.zero)).self.afc = ⟨a, gr_complex.zero⟩ ∧
      (work P ⟨i0, ip, ⟨p0, f0⟩, ⟨a, gr_complex.zero⟩⟩
        (List.replicate n gr_complex.zero)).self.nco.phase_inc = f0 ∧
      (work P ⟨i0, ip, ⟨p0, f0⟩, ⟨a, gr_complex.zero⟩⟩
        (List.replicate n gr_complex.zero)).self.nco.phase = p0 + (n : α) * f0 := by
  have h := work_loop_silence P hat hpi i0 ip f0 a n p0
  simp only [work, h]
  simp

/-- C15 at a concrete input over the rationals: phase `1/3`, frequency `1/7`,
coefficient `1/2`, three zero samples; the phase ends at `1/3 + 3 * (1/7)`. -/
theorem C15_silence_witness :
    ratPrims.fast_atan2f 0 0 = 0 ∧ (0 : ℚ) ≤ ratPrims.M_PI ∧
      (work ratPrims ⟨0, 0, ⟨1 / 3, 1 / 7⟩, ⟨1 / 2, gr_complex.zero⟩⟩
        (List.replicate 3 gr_complex.zero)).out = List.replicate 3 gr_complex.zero ∧
      (work ratPrims ⟨0, 0, ⟨1 / 3, 1 / 7⟩, ⟨1 / 2, gr_complex.zero⟩⟩
        (List.replicate 3 gr_complex.zero)).self.nco.phase_inc = 1 / 7 ∧
      (work ratPrims ⟨0, 0, ⟨1 / 3, 1 / 7⟩, ⟨1 / 2, gr_complex.zero⟩⟩
        (List.replicate 3 gr_complex.zero)).self.nco.phase = 16 / 21 := by
  have hat : ratPrims.fast_atan2f 0 0 = 0 := by norm_num [ratPrims]
  have hpi : (0 : ℚ) ≤ ratPrims.M_PI := by norm_num [ratPrims]
  have h := C15_silence ratPrims hat hpi 0 0 (1 / 3) (1 / 7) (1 / 2) 3
  refine ⟨hat, hpi, h.1, h.2.2.2.1, ?_⟩
  rw [h.2.2.2.2]
  norm_num

/-- C16. Amplitude invariance of the tracking loop: when the arctangent
primitive depends only on the direction of its argument, for every `c > 0`,
every oscillator state with a zero accumulator and every stream `xs`, the
stream scaled by `c` gives exactly `c` times the outputs of `xs`, and the same
oscillator (phase and frequency) at the end and after every number `k` of
samples. -/
theorem C16_amplitude_invariance (P : Prims α)
    (hat : ∀ c : α, 0 < c → ∀ y x, P.fast_atan2f (c * y) (c * x) = P.fast_atan2f y x)
    (c : α) (hc : 0 < c) (i0 ip p0 f0 a : α) (xs : List (gr_complex α)) (k : Nat) :
    (work P ⟨i0, ip, ⟨p0, f0⟩, ⟨a, gr_complex.zero⟩⟩ (xs.map (gr_complex.smul c))).out
        = (work P ⟨i0, ip, ⟨p0, f0⟩, ⟨a, gr_complex.zero⟩⟩ xs).out.map (gr_complex.smul c) ∧
      (work P ⟨i0, ip, ⟨p0, f0⟩, ⟨a, gr_complex.zero⟩⟩ (xs.map (gr_complex.smul c))).self.nco
        = (work P ⟨i0, ip, ⟨p0, f0⟩, ⟨a, gr_complex.zero⟩⟩ xs).self.nco ∧
      (work P ⟨i0, ip, ⟨p0, f0⟩, ⟨a, gr_complex.zero⟩⟩
          ((xs.map (gr_complex.smul c)).take k)).self.nco
        = (work P ⟨i0, ip, ⟨p0, f0⟩, ⟨a, gr_complex.zero⟩⟩ (xs.take k)).self.nco := by
  have hz : (gr_complex.zero : gr_complex α) = gr_complex.smul c gr_complex.zero := by
    simp [gr_complex.smul, gr_complex.zero]
  have key : ∀ zs : List (gr_complex α),
      work_loop P ⟨i0, ip, ⟨p0, f0⟩, ⟨a, gr_complex.zero⟩⟩ (zs.map (gr_complex.smul c))
        = ((work_loop P ⟨i0, ip, ⟨p0, f0⟩, ⟨a, gr_complex.zero⟩⟩ zs).1.map (gr_complex.smul c),
            ⟨i0, ip, (work_loop P ⟨i0, ip, ⟨p0, f0⟩, ⟨a, gr_complex.zero⟩⟩ zs).2.nco,
              ⟨a, gr_complex.smul c
                (work_loop P ⟨i0, ip, ⟨p0, f0⟩, ⟨a, gr_complex.zero⟩⟩
                  zs).2.afc.d_prev_output⟩⟩) := by
    intro zs
    have h := work_loop_scaled P c (hat c hc) i0 ip a zs ⟨p0, f0⟩ gr_complex.zero
    rw [← hz] at h
    exact h
  refine ⟨?_, ?_, ?_⟩
  · simp only [work, key xs]
  · simp only [work, key xs]
  · rw [← List.map_take]
    simp only [work, key (xs.take k)]

/-- C16 at a concrete input over the rationals: factor 2, phase 0, frequency
`1/10`, coefficient `1/2`, the stream `(1, 0), (0, 1)`. -/
theorem C16_amplitude_invariance_witness :
    (∀ c : ℚ, 0 < c → ∀ y x, ratPrims.fast_atan2f (c * y) (c * x) = ratPrims.fast_atan2f y x) ∧
      (0 : ℚ) < 2 ∧
      (work ratPrims ⟨0, 0, ⟨0, 1 / 10⟩, ⟨1 / 2, gr_complex.zero⟩⟩
          ([⟨1, 0⟩, ⟨0, 1⟩].map (gr_complex.smul 2))).out
        = (work ratPrims ⟨0, 0, ⟨0, 1 / 10⟩, ⟨1 / 2, gr_complex.zero⟩⟩
            [⟨1, 0⟩, ⟨0, 1⟩]).out.map (gr_complex.smul 2) ∧
      (work ratPrims ⟨0, 0, ⟨0, 1 / 10⟩, ⟨1 / 2, gr_complex.zero⟩⟩
          ([⟨1, 0⟩, ⟨0, 1⟩].map (gr_complex.smul 2))).self.nco
        = (work ratPrims ⟨0, 0, ⟨0, 1 / 10⟩, ⟨1 / 2, gr_complex.zero⟩⟩
            [⟨1, 0⟩, ⟨0, 1⟩]).self.nco := by
  have h := C16_amplitude_invariance ratPrims ratPrims_atan2_scale 2 (by norm_num)
    0 0 0 (1 / 10) (1 / 2) [⟨1, 0⟩, ⟨0, 1⟩] 1
  exact ⟨ratPrims_atan2_scale, by norm_num, h.1, h.2.1⟩

end AtscFpll
